import Mathlib

/-!
Verification of the GitHuntr repository scanner (githuntr.py).

This file shallowly embeds the scanner's core: the entropy-based secret
detector (`EntropyCalculator`), the per-tree scanning loops
(`GitHuntr.search_branch`, `GitHuntr.search_commit`), the commit-history
loop (`GitHuntr.search_history`) and the cleanup structure of
`GitHuntr.scan_repository`.  Python strings become Lean `String`s, the
result of reading-and-UTF-8-decoding a file becomes `Option String`
(`none` = `UnicodeDecodeError`/`IOError`), regular expressions (supplied
by Python's `re` library, external to the repository) become an abstract
`Pattern` of a search test and a findall function, and exceptions become
`Except` values.  Theorems at the end settle the specification claims.
-/

/-- The ASCII whitespace characters recognised by Python's `str.strip()`
and by `\s` in the `re` patterns used here (ASCII fragment). -/
def pyIsSpace (c : Char) : Bool :=
  c = ' ' || c = '\t' || c = '\n' || c = '\r' || c = '\x0b' || c = '\x0c'

/-- Characters of the splitting class in `re.split(r'[\s:=]+', content)`. -/
def splitClass (c : Char) : Bool :=
  pyIsSpace c || c = ':' || c = '='

/-- Worker for `pySplit`: splits on maximal runs of `splitClass`
characters, mirroring `re.split(r'[\s:=]+', content)` (which yields an
empty string for a leading or trailing separator run).  `inSep` records
whether we are inside a separator run whose token was already emitted;
`acc` holds the current token reversed. -/
def pySplitAux : Bool → List Char → List Char → List (List Char)
  | _, acc, [] => [acc.reverse]
  | inSep, acc, c :: rest =>
    if splitClass c then
      if inSep then pySplitAux true acc rest
      else acc.reverse :: pySplitAux true [] rest
    else pySplitAux false (c :: acc) rest

/-- `re.split(r'[\s:=]+', content)`. -/
def pySplit (content : String) : List String :=
  (pySplitAux false [] content.data).map fun l => String.mk l

/-- `str.strip()`: remove leading and trailing whitespace. -/
def pyStrip (s : String) : String :=
  String.mk (((s.data.dropWhile pyIsSpace).reverse.dropWhile pyIsSpace).reverse)

namespace EntropyCalculator

/-- `EntropyCalculator.BASE64_CHARS`. -/
def BASE64_CHARS : String :=
  "ABCDEFGHIJKLMNOPQRSTUVWXYZabcdefghijklmnopqrstuvwxyz0123456789+/="

/-- One step of the frequency-dictionary loop
`freq[char] = freq.get(char, 0) + 1`, on an insertion-ordered
association list (the representation of a Python `dict`). -/
def bump : List (Char × Nat) → Char → List (Char × Nat)
  | [], c => [(c, 1)]
  | p :: rest, c => if p.1 = c then (p.1, p.2 + 1) :: rest else p :: bump rest c

/-- The frequency dictionary built by
`for char in text: freq[char] = freq.get(char, 0) + 1`. -/
def charFreqs (l : List Char) : List (Char × Nat) :=
  l.foldl bump []

/-- `EntropyCalculator.calculate_entropy`: Shannon entropy of a string,
`-sum(count/length * math.log2(count/length) for count in freq.values())`,
with `0.0` for the empty string. -/
noncomputable def calculate_entropy (text : String) : ℝ :=
  if text.data = [] then 0
  else
    let freq := charFreqs text.data
    let length : ℝ := text.data.length
    Neg.neg ((freq.map fun p => (p.2 : ℝ) / length * Real.logb 2 ((p.2 : ℝ) / length)).sum)

open Classical in
/-- `EntropyCalculator.scan_for_secrets`: split the content on runs of
whitespace, `:` and `=`, strip each word, and collect (in order, with
repetitions) the words of length over 15 made only of Base64 characters
whose entropy exceeds 4.3. -/
noncomputable def scan_for_secrets (content : String) : List String :=
  (pySplit content).foldl
    (fun secrets word0 =>
      let word := pyStrip word0
      if 15 < word.length then
        if word.data.all (fun c => BASE64_CHARS.data.contains c) then
          if 4.3 < calculate_entropy word then secrets ++ [word] else secrets
        else secrets
      else secrets)
    []


/-- The specification's statement of the entropy contract: Shannon
entropy in bits, `-Σ p * log2 p` over the distinct characters with
empirical frequencies `p`.  Stated from the spec's words, to be compared
with the source-derived `calculate_entropy`. -/
noncomputable def shannonEntropyFormula (s : String) : ℝ :=
  -(∑ c ∈ s.data.toFinset,
      ((s.data.count c : ℝ) / s.data.length) *
        Real.logb 2 ((s.data.count c : ℝ) / s.data.length))

lemma bump_map_fst (fr : List (Char × Nat)) (c : Char) :
    (bump fr c).map Prod.fst =
      if c ∈ fr.map Prod.fst then fr.map Prod.fst else fr.map Prod.fst ++ [c] := by
  induction fr with
  | nil => simp [bump]
  | cons p fr ih =>
    by_cases h : p.1 = c
    · simp [bump, h]
    · by_cases hc : c ∈ fr.map Prod.fst <;>
        simp [bump, h, hc, Ne.symm h, ih]

lemma bump_count_mem (fr : List (Char × Nat)) (c : Char) (cnt : Char → Nat)
    (hnd : (fr.map Prod.fst).Nodup)
    (h1 : ∀ p ∈ fr, p.2 = cnt p.1)
    (h2 : c ∉ fr.map Prod.fst → cnt c = 0) :
    ∀ p ∈ bump fr c, p.2 = cnt p.1 + (if p.1 = c then 1 else 0) := by
  induction fr with
  | nil =>
    intro p hp
    simp only [bump, List.mem_singleton] at hp
    subst hp
    simp [h2 (by simp)]
  | cons q fr ih =>
    intro p hp
    simp only [List.map_cons, List.nodup_cons] at hnd
    by_cases h : q.1 = c
    · rw [bump, if_pos h] at hp
      rcases List.mem_cons.mp hp with hpq | hmem
      · rw [hpq]
        have hq := h1 q (List.mem_cons_self q fr)
        simp [h, hq]
      · have hne : p.1 ≠ c := by
          intro hpc
          exact hnd.1 (by rw [h, ← hpc]; exact List.mem_map_of_mem Prod.fst hmem)
        rw [if_neg hne, Nat.add_zero]
        exact h1 p (List.mem_cons_of_mem q hmem)
    · rw [bump, if_neg h] at hp
      rcases List.mem_cons.mp hp with hpq | hmem
      · rw [hpq, if_neg h, Nat.add_zero]
        exact h1 q (List.mem_cons_self q fr)
      · exact ih hnd.2 (fun p hp => h1 p (List.mem_cons_of_mem q hp))
          (fun hcf => h2 (fun hcq => by
            simp only [List.map_cons, List.mem_cons] at hcq
            exact hcq.elim (fun hh => h (Eq.symm hh)) hcf)) p hmem

lemma charFreqs_spec (l : List Char) :
    ((charFreqs l).map Prod.fst).Nodup ∧
    (∀ c, c ∈ (charFreqs l).map Prod.fst ↔ c ∈ l) ∧
    (∀ p ∈ charFreqs l, p.2 = l.count p.1) := by
  induction l using List.reverseRecOn with
  | nil => simp [charFreqs]
  | append_singleton l c ih =>
    obtain ⟨hnd, hmem, hcnt⟩ := ih
    have hfold : charFreqs (l ++ [c]) = bump (charFreqs l) c := by
      simp [charFreqs, List.foldl_append]
    refine ⟨?_, ?_, ?_⟩
    · rw [hfold, bump_map_fst]
      split_ifs with hc
      · exact hnd
      · simp only [List.nodup_append, List.nodup_cons]
        exact ⟨hnd, by simp, by simp [hc]⟩
    · intro a
      rw [hfold, bump_map_fst]
      split_ifs with hc
      · rw [hmem a]
        constructor
        · exact fun ha => List.mem_append_left _ ha
        · intro ha
          rcases List.mem_append.mp ha with ha | ha
          · exact ha
          · rw [List.mem_singleton.mp ha]
            exact (hmem c).mp hc
      · simp only [List.mem_append, List.mem_singleton, hmem a]
    · rw [hfold]
      intro p hp
      have hb := bump_count_mem (charFreqs l) c l.count hnd hcnt
        (fun hcf => List.count_eq_zero_of_not_mem (fun hcl => hcf ((hmem c).mpr hcl)))
        p hp
      rw [hb, List.count_append]
      congr 1
      rw [List.count_singleton']
      by_cases hpc : p.1 = c
      · rw [if_pos hpc, if_pos (Eq.symm hpc)]
      · rw [if_neg hpc, if_neg (fun hh => hpc (Eq.symm hh))]

lemma calculate_entropy_eq_shannon (s : String) :
    calculate_entropy s = shannonEntropyFormula s := by
  by_cases h : s.data = []
  · simp [calculate_entropy, shannonEntropyFormula, h]
  · obtain ⟨hnd, hmem, hcnt⟩ := charFreqs_spec s.data
    rw [calculate_entropy, if_neg h, shannonEntropyFormula]
    have hcongr :
        (charFreqs s.data).map
            (fun p => (p.2 : ℝ) / (s.data.length : ℝ) *
              Real.logb 2 ((p.2 : ℝ) / (s.data.length : ℝ))) =
          (charFreqs s.data).map
            ((fun c => ((s.data.count c : ℝ) / (s.data.length : ℝ)) *
              Real.logb 2 ((s.data.count c : ℝ) / (s.data.length : ℝ))) ∘ Prod.fst) :=
      List.map_congr_left (fun p hp => by rw [hcnt p hp]; rfl)
    have hfin : ((charFreqs s.data).map Prod.fst).toFinset = s.data.toFinset := by
      apply Finset.ext
      intro a
      simp [List.mem_toFinset, hmem a]
    dsimp only
    rw [hcongr, ← List.map_map, ← List.sum_toFinset _ hnd, hfin]


/-- The acceptance condition of the inner loop of `scan_for_secrets`:
length over 15, only Base64 characters, entropy strictly above 4.3. -/
def isCandidate (w : String) : Prop :=
  15 < w.length ∧
    w.data.all (fun c => BASE64_CHARS.data.contains c) = true ∧
    4.3 < calculate_entropy w

open Classical in
/-- Structural-recursion form of the `scan_for_secrets` loop. -/
noncomputable def candList : List String → List String
  | [] => []
  | w0 :: l =>
    if isCandidate (pyStrip w0) then pyStrip w0 :: candList l else candList l

open Classical in
lemma scan_for_secrets_eq_candList (content : String) :
    scan_for_secrets content = candList (pySplit content) := by
  rw [scan_for_secrets]
  generalize pySplit content = l
  suffices h : ∀ (l acc : List String),
      (l.foldl
        (fun secrets word0 =>
          let word := pyStrip word0
          if 15 < word.length then
            if word.data.all (fun c => BASE64_CHARS.data.contains c) then
              if 4.3 < calculate_entropy word then secrets ++ [word] else secrets
            else secrets
          else secrets)
        acc) = acc ++ candList l by
    simpa using h l []
  intro l
  induction l with
  | nil => intro acc; simp [candList]
  | cons w0 l ih =>
    intro acc
    rw [List.foldl_cons, ih]
    by_cases h1 : 15 < (pyStrip w0).length
    · by_cases h2 : (pyStrip w0).data.all (fun c => BASE64_CHARS.data.contains c) = true
      · by_cases h3 : 4.3 < calculate_entropy (pyStrip w0)
        · have hc : isCandidate (pyStrip w0) := ⟨h1, h2, h3⟩
          simp only [candList, if_pos hc, if_pos h1, if_pos h2, if_pos h3]
          simp
        · have hc : ¬isCandidate (pyStrip w0) := fun hh => h3 hh.2.2
          simp only [candList, if_neg hc, if_pos h1, if_pos h2, if_neg h3]
      · have hc : ¬isCandidate (pyStrip w0) := fun hh => h2 hh.2.1
        simp only [candList, if_neg hc, if_pos h1, if_neg h2]
    · have hc : ¬isCandidate (pyStrip w0) := fun hh => h1 hh.1
      simp only [candList, if_neg hc, if_neg h1]

lemma mem_candList (w : String) :
    ∀ l : List String, w ∈ candList l ↔ ∃ w0 ∈ l, w = pyStrip w0 ∧ isCandidate w := by
  intro l
  induction l with
  | nil => simp [candList]
  | cons w0 l ih =>
    by_cases h : isCandidate (pyStrip w0)
    · rw [candList, if_pos h]
      simp only [List.mem_cons, ih]
      constructor
      · rintro (rfl | ⟨w1, hw1, rfl, hc⟩)
        · exact ⟨w0, Or.inl rfl, rfl, h⟩
        · exact ⟨w1, Or.inr hw1, rfl, hc⟩
      · rintro ⟨w1, (rfl | hw1), rfl, hc⟩
        · exact Or.inl rfl
        · exact Or.inr ⟨w1, hw1, rfl, hc⟩
    · rw [candList, if_neg h]
      simp only [ih, List.mem_cons]
      constructor
      · rintro ⟨w1, hw1, rfl, hc⟩
        exact ⟨w1, Or.inr hw1, rfl, hc⟩
      · rintro ⟨w1, (rfl | hw1), rfl, hc⟩
        · exact absurd hc h
        · exact ⟨w1, hw1, rfl, hc⟩

lemma count_candList (w : String) (hw : isCandidate w) :
    ∀ l : List String, (candList l).count w = (l.map pyStrip).count w := by
  intro l
  induction l with
  | nil => simp [candList]
  | cons w0 l ih =>
    by_cases h : isCandidate (pyStrip w0)
    · rw [candList, if_pos h]
      simp [List.count_cons, ih]
    · have hne : ¬(w = pyStrip w0) := fun he => h (he ▸ hw)
      rw [candList, if_neg h]
      simp [List.count_cons, ih, hne]

/-- A token of 32 pairwise-distinct Base64-alphabet characters; its
entropy is exactly `log2 32 = 5`, above the 4.3 threshold. -/
def tok32 : String := "ABCDEFGHIJKLMNOPQRSTUVWXYZabcdef"

lemma entropy_tok32 : calculate_entropy tok32 = 5 := by
  rw [calculate_entropy_eq_shannon, shannonEntropyFormula]
  have hcount : ∀ c ∈ tok32.data.toFinset, tok32.data.count c = 1 := by decide
  have hlen : tok32.data.length = 32 := by decide
  have hcard : tok32.data.toFinset.card = 32 := by decide
  rw [Finset.sum_congr rfl (fun c hc => by rw [hcount c hc, hlen])]
  rw [Finset.sum_const, hcard, nsmul_eq_mul]
  have hlog : Real.logb 2 ((1 : ℕ) / (32 : ℕ) : ℝ) = -5 := by
    rw [show (((1 : ℕ) / (32 : ℕ) : ℝ)) = ((32 : ℝ))⁻¹ by norm_num, Real.logb_inv]
    rw [show (32 : ℝ) = 2 ^ (5 : ℕ) by norm_num, Real.logb_pow,
      Real.logb_self_eq_one (by norm_num)]
    norm_num
  rw [hlog]
  norm_num

lemma tok32_isCandidate : isCandidate tok32 := by
  refine ⟨by decide, by decide, ?_⟩
  rw [entropy_tok32]
  norm_num

/-- A string of one repeated character: a single frequency entry with
`p = 1`, hence entropy `-(1 * log2 1) = 0`. -/
lemma entropy_replicate40 :
    calculate_entropy (String.mk (List.replicate 40 'a')) = 0 := by
  rw [calculate_entropy_eq_shannon, shannonEntropyFormula]
  have hfin : (String.mk (List.replicate 40 'a')).data.toFinset = {'a'} := by decide
  have hcount : (String.mk (List.replicate 40 'a')).data.count 'a' = 40 := by decide
  have hlen : (String.mk (List.replicate 40 'a')).data.length = 40 := by decide
  rw [hfin, Finset.sum_singleton, hcount, hlen]
  norm_num

lemma entropy_empty : calculate_entropy "" = 0 := by
  rw [calculate_entropy]
  simp

end EntropyCalculator

/-- Tokens produced by `pySplitAux` contain no splitting-class
characters (in particular no whitespace). -/
lemma pySplitAux_no_sep :
    ∀ (l : List Char) (inSep : Bool) (acc : List Char),
      (∀ c ∈ acc, splitClass c = false) →
      ∀ t ∈ pySplitAux inSep acc l, ∀ c ∈ t, splitClass c = false := by
  intro l
  induction l with
  | nil =>
    intro inSep acc hacc t ht c hc
    simp only [pySplitAux, List.mem_singleton] at ht
    subst ht
    exact hacc c (List.mem_reverse.mp hc)
  | cons d l ih =>
    intro inSep acc hacc t ht c hc
    by_cases hd : splitClass d = true
    · cases inSep with
      | true =>
        simp only [pySplitAux, hd, if_pos, if_true] at ht
        exact ih true acc hacc t ht c hc
      | false =>
        simp only [pySplitAux, hd, if_pos, if_false] at ht
        rcases List.mem_cons.mp ht with rfl | ht'
        · exact hacc c (List.mem_reverse.mp hc)
        · exact ih true [] (by simp) t ht' c hc
    · have hd' : splitClass d = false := by
        cases hsp : splitClass d
        · rfl
        · exact absurd hsp hd
      simp only [pySplitAux, hd', Bool.false_eq_true, if_false] at ht
      refine ih false (d :: acc) ?_ t ht c hc
      intro c' hc'
      rcases List.mem_cons.mp hc' with rfl | hc''
      · exact hd'
      · exact hacc c' hc''

/-- Tokens produced by `pySplit` contain no splitting-class characters. -/
lemma pySplit_no_sep (content : String) :
    ∀ w ∈ pySplit content, ∀ c ∈ w.data, splitClass c = false := by
  intro w hw c hc
  rw [pySplit] at hw
  rcases List.mem_map.mp hw with ⟨t, ht, rfl⟩
  exact pySplitAux_no_sep content.data false [] (by simp) t ht c hc

lemma dropWhile_no_space (l : List Char) (h : ∀ c ∈ l, pyIsSpace c = false) :
    l.dropWhile pyIsSpace = l := by
  cases l with
  | nil => rfl
  | cons c l => simp [List.dropWhile_cons, h c (List.mem_cons_self c l)]

/-- Stripping a string with no whitespace is the identity. -/
lemma pyStrip_eq_self (w : String) (h : ∀ c ∈ w.data, pyIsSpace c = false) :
    pyStrip w = w := by
  rw [pyStrip, dropWhile_no_space _ h,
    dropWhile_no_space _ (fun c hc => h c (List.mem_reverse.mp hc)), List.reverse_reverse]

/-- Tokens produced by `pySplit` are unchanged by `str.strip()`. -/
lemma pyStrip_of_pySplit (content : String) (w : String) (hw : w ∈ pySplit content) :
    pyStrip w = w := by
  refine pyStrip_eq_self w (fun c hc => ?_)
  have := pySplit_no_sep content w hw c hc
  cases hsp : pyIsSpace c
  · rfl
  · exfalso
    rw [splitClass, hsp] at this
    simp at this

/-- An already-compiled regular expression, as used through Python's `re`
library (external to the repository): `search` is the truth value of
`re.search(pattern, s)`, `findall` is `re.findall(pattern, s)`, the list
of all non-overlapping matches from the left. -/
structure Pattern where
  search : String → Bool
  findall : String → List String

/-- The matching/entropy configuration threaded through the scan:
optional filename regex, optional content regex, and the entropy flag. -/
structure ScanConfig where
  filename_regex : Option Pattern
  content_regex : Option Pattern
  do_entropy : Bool

/-- One entry of a commit's tree as produced by `commit.tree.traverse()`:
its base name, its repository-relative path, its `type` tag, and the
result of `blob.data_stream.read().decode('utf-8')` (`none` when the
read raises `IOError` or the bytes fail to decode). -/
structure Blob where
  name : String
  path : String
  type : String
  data : Option String
deriving DecidableEq

/-- The three reported views of scanning one tree: matching filenames,
path-indexed content matches, path-indexed entropy findings. -/
structure TreeResult where
  filenames : List String
  content : List (String × List String)
  entropy : List (String × List String)
deriving DecidableEq

/-- The empty `TreeResult` each scan starts from. -/
def emptyTR : TreeResult := ⟨[], [], []⟩

/-- A commit as handed over by GitPython: metadata plus its tree
(`none` when traversing the tree raises `git.exc.GitCommandError`). -/
structure Commit where
  hexsha : String
  author : String
  authored_date : Int
  message : String
  tree : Option (List Blob)
deriving DecidableEq

/-- The `commit_info` record stored with each commit's results. -/
structure CommitInfo where
  hash : String
  author : String
  date : Int
  message : String
deriving DecidableEq

/-- A commit's search results: the three views plus `commit_info`. -/
structure CommitResult where
  res : TreeResult
  info : CommitInfo
deriving DecidableEq

/-- A file met while walking the checked-out working tree in
`search_branch`: base name, path relative to the clone directory, and
the decoded content (`none` on `UnicodeDecodeError`/`IOError`). -/
structure FsFile where
  name : String
  relPath : String
  data : Option String
deriving DecidableEq

/-- One `(root, dirs, files)` triple yielded by `os.walk`. -/
structure WalkDir where
  root : String
  files : List FsFile
deriving DecidableEq

/-- The check `'.git' in root` of `search_branch`: `.git` occurs as a
substring of the directory path. -/
def containsGit (root : String) : Bool :=
  decide (".git".data <:+: root.data)

namespace GitHuntr

/-- The body of the per-blob loop of `GitHuntr.search_commit`, threading
the accumulated `TreeResult` together with the number of invocations of
the byte-reading path `blob.data_stream.read()`.  Mirrors the source:
skip non-blob entries; test the filename regex against the base name;
read and decode the bytes (counted); on decode/read failure skip the
rest; otherwise record content matches and entropy findings. -/
noncomputable def scanTreeStep (cfg : ScanConfig) :
    TreeResult × Nat → Blob → TreeResult × Nat := fun (r, reads) b =>
  if b.type = "blob" then
    let r :=
      match cfg.filename_regex with
      | some p => if p.search b.name then { r with filenames := r.filenames ++ [b.path] } else r
      | none => r
    let reads := reads + 1
    match b.data with
    | none => (r, reads)
    | some content =>
      let r :=
        match cfg.content_regex with
        | some p =>
          if p.search content then
            { r with content := r.content ++ [(b.path, p.findall content)] }
          else r
        | none => r
      let r :=
        if cfg.do_entropy then
          let secrets := EntropyCalculator.scan_for_secrets content
          if secrets ≠ [] then { r with entropy := r.entropy ++ [(b.path, secrets)] } else r
        else r
      (r, reads)
  else (r, reads)

/-- `GitHuntr.search_commit`: scan all blobs of one commit's tree,
producing the three views plus `commit_info`; a tree whose traversal
fails yields empty views.  The second component counts invocations of
the byte-reading path. -/
noncomputable def search_commit (cfg : ScanConfig) (c : Commit) : CommitResult × Nat :=
  let info : CommitInfo :=
    { hash := c.hexsha, author := c.author, date := c.authored_date,
      message := pyStrip c.message }
  match c.tree with
  | none => (⟨emptyTR, info⟩, 0)
  | some blobs =>
    let (r, n) := blobs.foldl (scanTreeStep cfg) (emptyTR, 0)
    (⟨r, info⟩, n)

/-- Python slicing `l[:m]` for an `int` bound `m` (a negative bound
keeps all but the last `-m` elements). -/
def pyTake (m : Int) (l : List α) : List α :=
  if m < 0 then l.take ((l.length : Int) + m).toNat else l.take m.toNat

/-- The commit truncation of `GitHuntr.search_history`:
`if self.max_commits: commits = commits[:self.max_commits]` — note that
both `None` and `0` are falsy, so neither truncates. -/
def processedCommits (commits : List Commit) (max_commits : Option Int) : List Commit :=
  match max_commits with
  | none => commits
  | some m => if m = 0 then commits else pyTake m commits

/-- `GitHuntr.search_history`: scan the (possibly truncated) commit
list, keeping only commits with at least one finding, keyed by their
hash.  The second component accumulates the byte-reading invocation
count across all processed commits. -/
noncomputable def search_history (cfg : ScanConfig) (commits : List Commit)
    (max_commits : Option Int) : List (String × CommitResult) × Nat :=
  (processedCommits commits max_commits).foldl
    (fun (acc, n) c =>
      let (res, m) := search_commit cfg c
      let acc :=
        if res.res.filenames ≠ [] ∨ res.res.content ≠ [] ∨ res.res.entropy ≠ [] then
          acc ++ [(c.hexsha, res)]
        else acc
      (acc, n + m))
    ([], 0)

/-- The body of the per-file loop of `GitHuntr.search_branch`: test the
filename regex against the base name, then read the file; on
decode/read failure skip the rest; otherwise record content matches and
entropy findings under the relative path. -/
noncomputable def scanFileStep (cfg : ScanConfig) (r : TreeResult) (f : FsFile) : TreeResult :=
  let r :=
    match cfg.filename_regex with
    | some p => if p.search f.name then { r with filenames := r.filenames ++ [f.relPath] } else r
    | none => r
  match f.data with
  | none => r
  | some content =>
    let r :=
      match cfg.content_regex with
      | some p =>
        if p.search content then
          { r with content := r.content ++ [(f.relPath, p.findall content)] }
        else r
      | none => r
    if cfg.do_entropy then
      let secrets := EntropyCalculator.scan_for_secrets content
      if secrets ≠ [] then { r with entropy := r.entropy ++ [(f.relPath, secrets)] } else r
    else r

/-- The body of the per-directory loop of `GitHuntr.search_branch`: a
directory whose path contains `.git` is skipped entirely (`continue`),
otherwise every file in it is scanned. -/
noncomputable def scanDirStep (cfg : ScanConfig) (r : TreeResult) (d : WalkDir) : TreeResult :=
  if containsGit d.root then r else d.files.foldl (scanFileStep cfg) r

/-- `GitHuntr.search_branch`: after checking the branch out (a failed
checkout yields empty views), walk the working tree and scan every file
outside `.git` directories. -/
noncomputable def search_branch (cfg : ScanConfig) (checkoutOk : Bool)
    (dirs : List WalkDir) : TreeResult :=
  if checkoutOk then dirs.foldl (scanDirStep cfg) emptyTR else emptyTR

/-- The temporary-clone-directory state around `scan_repository`. -/
structure World where
  tempDirExists : Bool
deriving DecidableEq

/-- The `finally` clause of `GitHuntr.scan_repository`:
`if os.path.exists(self.temp_dir): shutil.rmtree(self.temp_dir)`. -/
def cleanup_temp (w : World) : World :=
  if w.tempDirExists then ⟨false⟩ else w

/-- `GitHuntr.scan_repository`, with the fallible stages (clone, branch
scanning, history scanning) abstracted as `Except` outcomes: the `try`
body sequences the stages, short-circuiting on the first raised
exception, the history stage running only when requested; the `finally`
clause removes the temporary clone directory on every path. -/
def scan_repository (cloneRes branchRes histRes : Except String Unit)
    (searchHistory : Bool) (w : World) : Except String Unit × World :=
  let body : Except String Unit := do
    cloneRes
    branchRes
    if searchHistory then histRes else pure ()
  (body, cleanup_temp w)

end GitHuntr

/-- Concatenation of per-element contributions. -/
def catMap (f : α → List β) : List α → List β
  | [] => []
  | a :: l => f a ++ catMap f l

lemma catMap_nil_of {f : α → List β} {l : List α} (h : ∀ a ∈ l, f a = []) :
    catMap f l = [] := by
  induction l with
  | nil => rfl
  | cons a l ih =>
    rw [catMap, h a (List.mem_cons_self a l), List.nil_append]
    exact ih (fun a ha => h a (List.mem_cons_of_mem _ ha))

lemma mem_catMap {f : α → List β} {a : α} {l : List α} (ha : a ∈ l) {x : β}
    (hx : x ∈ f a) : x ∈ catMap f l := by
  induction l with
  | nil => cases ha
  | cons b l ih =>
    rcases List.mem_cons.mp ha with rfl | ha'
    · exact List.mem_append_left _ hx
    · exact List.mem_append_right _ (ih ha')

lemma catMap_append (f : α → List β) (l1 l2 : List α) :
    catMap f (l1 ++ l2) = catMap f l1 ++ catMap f l2 := by
  induction l1 with
  | nil => simp [catMap]
  | cons a l ih => simp [catMap, ih]

/-- Sum of per-element numeric contributions. -/
def sumMap (f : α → Nat) : List α → Nat
  | [] => 0
  | a :: l => f a + sumMap f l

namespace GitHuntr

/-- Filenames-view contribution of one tree entry in `search_commit`. -/
def fnOf (cfg : ScanConfig) (b : Blob) : List String :=
  if b.type = "blob" then
    match cfg.filename_regex with
    | some p => if p.search b.name then [b.path] else []
    | none => []
  else []

/-- Content-view contribution of one tree entry in `search_commit`. -/
def ctOf (cfg : ScanConfig) (b : Blob) : List (String × List String) :=
  if b.type = "blob" then
    match b.data with
    | some content =>
      match cfg.content_regex with
      | some p => if p.search content then [(b.path, p.findall content)] else []
      | none => []
    | none => []
  else []

/-- Entropy-view contribution of one tree entry in `search_commit`. -/
noncomputable def enOf (cfg : ScanConfig) (b : Blob) : List (String × List String) :=
  if b.type = "blob" then
    match b.data with
    | some content =>
      if cfg.do_entropy then
        if EntropyCalculator.scan_for_secrets content ≠ [] then
          [(b.path, EntropyCalculator.scan_for_secrets content)]
        else []
      else []
    | none => []
  else []

/-- Byte-reading-path invocations for one tree entry: one per entry of
type `blob`, regardless of content. -/
def rdOf (b : Blob) : Nat :=
  if b.type = "blob" then 1 else 0

lemma scanTreeStep_eq (cfg : ScanConfig) (r : TreeResult) (n : Nat) (b : Blob) :
    scanTreeStep cfg (r, n) b =
      ({ filenames := r.filenames ++ fnOf cfg b,
         content := r.content ++ ctOf cfg b,
         entropy := r.entropy ++ enOf cfg b }, n + rdOf b) := by
  by_cases ht : b.type = "blob"
  · rcases hd : b.data with _ | content <;>
      rcases hf : cfg.filename_regex with _ | p <;>
      rcases hc : cfg.content_regex with _ | q <;>
      by_cases he : cfg.do_entropy <;>
      simp [scanTreeStep, fnOf, ctOf, enOf, rdOf, ht, hd, hf, hc, he] <;>
      split_ifs <;>
      simp_all
  · simp [scanTreeStep, fnOf, ctOf, enOf, rdOf, ht]

lemma foldl_scanTreeStep (cfg : ScanConfig) :
    ∀ (l : List Blob) (r : TreeResult) (n : Nat),
      l.foldl (scanTreeStep cfg) (r, n) =
        ({ filenames := r.filenames ++ catMap (fnOf cfg) l,
           content := r.content ++ catMap (ctOf cfg) l,
           entropy := r.entropy ++ catMap (enOf cfg) l }, n + sumMap rdOf l) := by
  intro l
  induction l with
  | nil =>
    intro r n
    cases r
    simp [catMap, sumMap]
  | cons b l ih =>
    intro r n
    rw [List.foldl_cons, scanTreeStep_eq, ih]
    simp [catMap, sumMap, List.append_assoc, Nat.add_assoc]

lemma search_commit_views (cfg : ScanConfig) (c : Commit) (blobs : List Blob)
    (h : c.tree = some blobs) :
    (search_commit cfg c).1.res =
      { filenames := catMap (fnOf cfg) blobs,
        content := catMap (ctOf cfg) blobs,
        entropy := catMap (enOf cfg) blobs } ∧
    (search_commit cfg c).2 = sumMap rdOf blobs := by
  rw [search_commit, h]
  dsimp only
  rw [foldl_scanTreeStep]
  simp [emptyTR]

/-- Filenames-view contribution of one walked file in `search_branch`. -/
def fnOfF (cfg : ScanConfig) (f : FsFile) : List String :=
  match cfg.filename_regex with
  | some p => if p.search f.name then [f.relPath] else []
  | none => []

/-- Content-view contribution of one walked file in `search_branch`. -/
def ctOfF (cfg : ScanConfig) (f : FsFile) : List (String × List String) :=
  match f.data with
  | some content =>
    match cfg.content_regex with
    | some p => if p.search content then [(f.relPath, p.findall content)] else []
    | none => []
  | none => []

/-- Entropy-view contribution of one walked file in `search_branch`. -/
noncomputable def enOfF (cfg : ScanConfig) (f : FsFile) : List (String × List String) :=
  match f.data with
  | some content =>
    if cfg.do_entropy then
      if EntropyCalculator.scan_for_secrets content ≠ [] then
        [(f.relPath, EntropyCalculator.scan_for_secrets content)]
      else []
    else []
  | none => []

lemma scanFileStep_eq (cfg : ScanConfig) (r : TreeResult) (f : FsFile) :
    scanFileStep cfg r f =
      { filenames := r.filenames ++ fnOfF cfg f,
        content := r.content ++ ctOfF cfg f,
        entropy := r.entropy ++ enOfF cfg f } := by
  rcases hd : f.data with _ | content <;>
    rcases hf : cfg.filename_regex with _ | p <;>
    rcases hc : cfg.content_regex with _ | q <;>
    by_cases he : cfg.do_entropy <;>
    simp [scanFileStep, fnOfF, ctOfF, enOfF, hd, hf, hc, he] <;>
    split_ifs <;>
    simp_all

lemma foldl_scanFileStep (cfg : ScanConfig) :
    ∀ (l : List FsFile) (r : TreeResult),
      l.foldl (scanFileStep cfg) r =
        { filenames := r.filenames ++ catMap (fnOfF cfg) l,
          content := r.content ++ catMap (ctOfF cfg) l,
          entropy := r.entropy ++ catMap (enOfF cfg) l } := by
  intro l
  induction l with
  | nil =>
    intro r
    cases r
    simp [catMap]
  | cons f l ih =>
    intro r
    rw [List.foldl_cons, scanFileStep_eq, ih]
    simp [catMap, List.append_assoc]

/-- Filenames-view contribution of one walked directory. -/
def dirF (cfg : ScanConfig) (d : WalkDir) : List String :=
  if containsGit d.root then [] else catMap (fnOfF cfg) d.files

/-- Content-view contribution of one walked directory. -/
def dirC (cfg : ScanConfig) (d : WalkDir) : List (String × List String) :=
  if containsGit d.root then [] else catMap (ctOfF cfg) d.files

/-- Entropy-view contribution of one walked directory. -/
noncomputable def dirE (cfg : ScanConfig) (d : WalkDir) : List (String × List String) :=
  if containsGit d.root then [] else catMap (enOfF cfg) d.files

lemma scanDirStep_eq (cfg : ScanConfig) (r : TreeResult) (d : WalkDir) :
    scanDirStep cfg r d =
      { filenames := r.filenames ++ dirF cfg d,
        content := r.content ++ dirC cfg d,
        entropy := r.entropy ++ dirE cfg d } := by
  by_cases hg : containsGit d.root
  · cases r
    simp [scanDirStep, dirF, dirC, dirE, hg]
  · rw [scanDirStep, if_neg hg, foldl_scanFileStep, dirF, dirC, dirE,
      if_neg hg, if_neg hg, if_neg hg]

lemma foldl_scanDirStep (cfg : ScanConfig) :
    ∀ (l : List WalkDir) (r : TreeResult),
      l.foldl (scanDirStep cfg) r =
        { filenames := r.filenames ++ catMap (dirF cfg) l,
          content := r.content ++ catMap (dirC cfg) l,
          entropy := r.entropy ++ catMap (dirE cfg) l } := by
  intro l
  induction l with
  | nil =>
    intro r
    cases r
    simp [catMap]
  | cons d l ih =>
    intro r
    rw [List.foldl_cons, scanDirStep_eq, ih]
    simp [catMap, List.append_assoc]

lemma search_branch_views (cfg : ScanConfig) (dirs : List WalkDir) :
    search_branch cfg true dirs =
      { filenames := catMap (dirF cfg) dirs,
        content := catMap (dirC cfg) dirs,
        entropy := catMap (dirE cfg) dirs } := by
  rw [search_branch, if_pos rfl, foldl_scanDirStep]
  simp [emptyTR]

lemma ctOf_of_data_none (cfg : ScanConfig) (b : Blob) (h : b.data = none) :
    ctOf cfg b = [] := by
  by_cases ht : b.type = "blob" <;> simp [ctOf, h, ht]

lemma enOf_of_data_none (cfg : ScanConfig) (b : Blob) (h : b.data = none) :
    enOf cfg b = [] := by
  by_cases ht : b.type = "blob" <;> simp [enOf, h, ht]

lemma ctOfF_of_data_none (cfg : ScanConfig) (f : FsFile) (h : f.data = none) :
    ctOfF cfg f = [] := by
  simp [ctOfF, h]

lemma enOfF_of_data_none (cfg : ScanConfig) (f : FsFile) (h : f.data = none) :
    enOfF cfg f = [] := by
  simp [enOfF, h]

lemma ctOf_of_no_regex (cfg : ScanConfig) (b : Blob) (h : cfg.content_regex = none) :
    ctOf cfg b = [] := by
  by_cases ht : b.type = "blob" <;> rcases hd : b.data with _ | t <;> simp [ctOf, h, ht, hd]

lemma ctOfF_of_no_regex (cfg : ScanConfig) (f : FsFile) (h : cfg.content_regex = none) :
    ctOfF cfg f = [] := by
  rcases hd : f.data with _ | t <;> simp [ctOfF, h, hd]

/-- The number of byte-reading invocations one commit causes: one per
blob entry of its tree (zero when the tree cannot be traversed). -/
def commitReads (c : Commit) : Nat :=
  match c.tree with
  | none => 0
  | some l => sumMap rdOf l

lemma search_commit_reads (cfg : ScanConfig) (c : Commit) :
    (search_commit cfg c).2 = commitReads c := by
  rcases ht : c.tree with _ | blobs
  · rw [search_commit, commitReads, ht]
  · rw [commitReads, ht]
    exact (search_commit_views cfg c blobs ht).2

lemma search_history_reads (cfg : ScanConfig) (commits : List Commit)
    (max_commits : Option Int) :
    (search_history cfg commits max_commits).2 =
      sumMap (fun c => (search_commit cfg c).2) (processedCommits commits max_commits) := by
  rw [search_history]
  generalize processedCommits commits max_commits = cs
  suffices h : ∀ (cs : List Commit) (acc : List (String × CommitResult)) (n : Nat),
      (cs.foldl
        (fun (acc, n) c =>
          let (res, m) := search_commit cfg c
          let acc :=
            if res.res.filenames ≠ [] ∨ res.res.content ≠ [] ∨ res.res.entropy ≠ [] then
              acc ++ [(c.hexsha, res)]
            else acc
          (acc, n + m))
        (acc, n)).2 = n + sumMap (fun c => (search_commit cfg c).2) cs by
    simpa using h cs [] 0
  intro cs
  induction cs with
  | nil => intro acc n; simp [sumMap]
  | cons c cs ih =>
    intro acc n
    rw [List.foldl_cons]
    rcases hsc : search_commit cfg c with ⟨res, m⟩
    dsimp only
    rw [ih, sumMap]
    simp only [hsc]
    omega

end GitHuntr


/-- The ASCII fragment of the `\w` character class of Python's `re`. -/
def isWordChar (c : Char) : Bool :=
  c.isAlphanum || c = '_'

/-- Worker for `findallKey`, fuelled for structural recursion (one unit
of fuel per consumed character suffices). -/
def findallKeyAux : Nat → List Char → List (List Char)
  | 0, _ => []
  | _ + 1, [] => []
  | fuel + 1, c :: rest =>
    if ['k', 'e', 'y', '='].isPrefixOf (c :: rest) then
      let after := (c :: rest).drop 4
      let run := after.takeWhile isWordChar
      if run.isEmpty then findallKeyAux fuel rest
      else (['k', 'e', 'y', '='] ++ run) :: findallKeyAux fuel (after.drop run.length)
    else findallKeyAux fuel rest

/-- Models Python's `re.findall(r'key=\w+', s)` for the spec's example
pattern: leftmost non-overlapping matches, each a literal `key=`
followed by a maximal (greedy) nonempty run of word characters. -/
def findallKey (s : String) : List String :=
  (findallKeyAux s.data.length s.data).map fun l => String.mk l

/-- The example content pattern `key=\w+` as a compiled `Pattern`:
`re.search` is truthy exactly when some match exists. -/
def pKeyW : Pattern :=
  ⟨fun s => !(findallKey s).isEmpty, findallKey⟩

/-- A filename pattern matching every name, as compiled from e.g. a
glob-translated `.*` filename regex. -/
def pMatchAll : Pattern :=
  ⟨fun _ => true, fun _ => []⟩

/-- Configuration with only a (match-everything) filename regex. -/
def cfgFnOnly : ScanConfig := ⟨some pMatchAll, none, false⟩

/-- Configuration with only the `key=\w+` content regex. -/
def cfgKey : ScanConfig := ⟨none, some pKeyW, false⟩

/-- Configuration with no regexes and no entropy scan. -/
def cfgPlain : ScanConfig := ⟨none, none, false⟩

/-- A tree entry whose bytes fail to decode as UTF-8. -/
def badBlob : Blob := ⟨"data.bin", "data.bin", "blob", none⟩

/-- A decodable tree entry containing the spec's content-match example. -/
def keyBlob : Blob := ⟨"config.yaml", "config.yaml", "blob", some "key=AAA key=BBB"⟩

/-- The commit wrapping `keyBlob`. -/
def keyCommit : Commit := ⟨"h1", "au", 0, "msg", some [keyBlob]⟩

/-- A blob shared byte-identically by two commits. -/
def sharedBlob : Blob := ⟨"secret.txt", "secret.txt", "blob", some "identical-bytes"⟩

/-- First of two commits whose trees are byte-identical. -/
def cH1 : Commit := ⟨"c1hash", "au", 0, "m", some [sharedBlob]⟩

/-- Second of two commits whose trees are byte-identical. -/
def cH2 : Commit := ⟨"c2hash", "au", 1, "m", some [sharedBlob]⟩

/-- Commits used to exercise the history bound. -/
def cA : Commit := ⟨"a1", "au", 0, "m", some []⟩

/-- See `cA`. -/
def cB : Commit := ⟨"b1", "au", 1, "m", some []⟩

/-- See `cA`. -/
def cC : Commit := ⟨"c1", "au", 2, "m", some []⟩

/-- A file under a `.github` directory that would otherwise match. -/
def secretFile : FsFile := ⟨"secrets.txt", ".github/secrets.txt", some "hello"⟩

/-- A walked `.github` directory: not VCS-internal storage, yet its path
contains `.git` as a substring. -/
def githubDir : WalkDir := ⟨"repo/.github", [secretFile]⟩

/-- The duplicated-token content for the entropy-dedup claims. -/
def dupContent : String := EntropyCalculator.tok32 ++ " " ++ EntropyCalculator.tok32

lemma all_contains_iff (w : String) :
    (w.data.all (fun c => EntropyCalculator.BASE64_CHARS.data.contains c) = true) ↔
      ∀ c ∈ w.data, c ∈ EntropyCalculator.BASE64_CHARS.data := by
  simp [List.all_eq_true]

/-- C5: the entropy score equals Shannon entropy in bits computed from
per-character empirical frequencies, `-Σ p * log2 p` over the distinct
characters; the empty string scores exactly 0, and a 40-character run of
one repeated character scores exactly 0. -/
theorem entropy_score_shannon_contract :
    (∀ s : String,
      EntropyCalculator.calculate_entropy s = EntropyCalculator.shannonEntropyFormula s) ∧
    EntropyCalculator.calculate_entropy "" = 0 ∧
    EntropyCalculator.calculate_entropy (String.mk (List.replicate 40 'a')) = 0 :=
  ⟨EntropyCalculator.calculate_entropy_eq_shannon, EntropyCalculator.entropy_empty,
    EntropyCalculator.entropy_replicate40⟩

/-- C6: the entropy score is invariant under character reordering: two
strings that are permutations of each other score identically. -/
theorem entropy_anagram_invariant (s t : String) (h : s.data.Perm t.data) :
    EntropyCalculator.calculate_entropy s = EntropyCalculator.calculate_entropy t := by
  rw [EntropyCalculator.calculate_entropy_eq_shannon,
    EntropyCalculator.calculate_entropy_eq_shannon,
    EntropyCalculator.shannonEntropyFormula, EntropyCalculator.shannonEntropyFormula,
    List.toFinset_eq_of_perm _ _ h, h.length_eq]
  refine congrArg Neg.neg (Finset.sum_congr rfl fun c hc => ?_)
  rw [h.count_eq]

/-- Witness for C6 at a concrete anagram pair. -/
theorem entropy_anagram_invariant_witness :
    (("ab" : String).data.Perm ("ba" : String).data) ∧
    EntropyCalculator.calculate_entropy "ab" = EntropyCalculator.calculate_entropy "ba" :=
  ⟨by decide, entropy_anagram_invariant "ab" "ba" (by decide)⟩

/-- C4: a token produced by splitting content on runs of whitespace,
`:` or `=` is flagged as a secret candidate iff its length exceeds 15,
all its characters are in the 65-symbol Base64 alphabet, and its entropy
exceeds 4.3; in particular tokens of length at most 15 are always
rejected, as is any token containing a space. -/
theorem isCandidateSecret_iff :
    (∀ content w : String, w ∈ pySplit content →
      (w ∈ EntropyCalculator.scan_for_secrets content ↔
        15 < w.length ∧ (∀ c ∈ w.data, c ∈ EntropyCalculator.BASE64_CHARS.data) ∧
          4.3 < EntropyCalculator.calculate_entropy w)) ∧
    (∀ content w : String, w.length ≤ 15 →
      w ∉ EntropyCalculator.scan_for_secrets content) ∧
    (∀ content w : String, ' ' ∈ w.data →
      w ∉ EntropyCalculator.scan_for_secrets content) := by
  refine ⟨?_, ?_, ?_⟩
  · intro content w hw
    rw [EntropyCalculator.scan_for_secrets_eq_candList, EntropyCalculator.mem_candList]
    constructor
    · rintro ⟨w0, hw0, rfl, hc⟩
      exact ⟨hc.1, (all_contains_iff _).mp hc.2.1, hc.2.2⟩
    · rintro ⟨h1, h2, h3⟩
      exact ⟨w, hw, (pyStrip_of_pySplit content w hw).symm,
        h1, (all_contains_iff w).mpr h2, h3⟩
  · intro content w hlen hmem
    rw [EntropyCalculator.scan_for_secrets_eq_candList, EntropyCalculator.mem_candList] at hmem
    obtain ⟨w0, hw0, rfl, hc⟩ := hmem
    exact absurd hc.1 (by omega)
  · intro content w hsp hmem
    rw [EntropyCalculator.scan_for_secrets_eq_candList, EntropyCalculator.mem_candList] at hmem
    obtain ⟨w0, hw0, rfl, hc⟩ := hmem
    exact absurd ((all_contains_iff _).mp hc.2.1 ' ' hsp) (by decide)

/-- Witness for C4 at the concrete 32-character Base64 token. -/
theorem isCandidateSecret_iff_witness :
    EntropyCalculator.tok32 ∈ pySplit EntropyCalculator.tok32 ∧
    (EntropyCalculator.tok32 ∈ EntropyCalculator.scan_for_secrets EntropyCalculator.tok32 ↔
      15 < EntropyCalculator.tok32.length ∧
        (∀ c ∈ EntropyCalculator.tok32.data, c ∈ EntropyCalculator.BASE64_CHARS.data) ∧
        4.3 < EntropyCalculator.calculate_entropy EntropyCalculator.tok32) :=
  ⟨by decide,
    isCandidateSecret_iff.1 EntropyCalculator.tok32 EntropyCalculator.tok32 (by decide)⟩

/-- C3 counterexample: the claim says per-file secret candidates are
de-duplicated, but scanning content in which the same qualifying
high-entropy token occurs twice yields that token twice. -/
theorem secret_candidates_duplicated_cex :
    EntropyCalculator.scan_for_secrets dupContent =
      [EntropyCalculator.tok32, EntropyCalculator.tok32] ∧
    (EntropyCalculator.scan_for_secrets dupContent).count EntropyCalculator.tok32 = 2 := by
  have hsplit : pySplit dupContent = [EntropyCalculator.tok32, EntropyCalculator.tok32] := by
    decide
  have hstrip : pyStrip EntropyCalculator.tok32 = EntropyCalculator.tok32 := by decide
  have hc := EntropyCalculator.tok32_isCandidate
  have h : EntropyCalculator.scan_for_secrets dupContent =
      [EntropyCalculator.tok32, EntropyCalculator.tok32] := by
    rw [EntropyCalculator.scan_for_secrets_eq_candList, hsplit]
    simp only [EntropyCalculator.candList, hstrip]
    rw [hstrip]
    simp only [if_pos hc]
  exact ⟨h, by rw [h]; decide⟩

/-- C3 (amended): the candidates collected for one file keep one entry
per qualifying token occurrence (a list, not a de-duplicated set): a
qualifying token's multiplicity in the result equals its multiplicity
among the file's stripped tokens. -/
theorem secret_candidates_multiplicity (content w : String)
    (hw : EntropyCalculator.isCandidate w) :
    (EntropyCalculator.scan_for_secrets content).count w =
      ((pySplit content).map pyStrip).count w := by
  rw [EntropyCalculator.scan_for_secrets_eq_candList]
  exact EntropyCalculator.count_candList w hw (pySplit content)

/-- Witness for the amended C3 at the duplicated-token content. -/
theorem secret_candidates_multiplicity_witness :
    EntropyCalculator.isCandidate EntropyCalculator.tok32 ∧
    (EntropyCalculator.scan_for_secrets dupContent).count EntropyCalculator.tok32 = 2 :=
  ⟨EntropyCalculator.tok32_isCandidate, by
    rw [secret_candidates_multiplicity dupContent EntropyCalculator.tok32
      EntropyCalculator.tok32_isCandidate]
    decide⟩

lemma sumMap_congr {f g : α → Nat} :
    ∀ {l : List α}, (∀ a ∈ l, f a = g a) → sumMap f l = sumMap g l := by
  intro l
  induction l with
  | nil => intro _; rfl
  | cons a l ih =>
    intro h
    rw [sumMap, sumMap, h a (List.mem_cons_self a l),
      ih (fun a ha => h a (List.mem_cons_of_mem _ ha))]

/-- C7: with a content regex supplied, a matching decoded file's entry
in the content view is the list of all non-overlapping matches (the
`findall` result, not a boolean), in both the branch walk and the commit
tree scan; with no content regex, the content view stays empty. -/
theorem content_view_all_matches :
    (∀ (cfg : ScanConfig) (p : Pattern) (c : Commit) (blobs : List Blob) (b : Blob)
        (t : String),
      cfg.content_regex = some p → c.tree = some blobs → b ∈ blobs → b.type = "blob" →
      b.data = some t → p.search t = true →
      (b.path, p.findall t) ∈ (GitHuntr.search_commit cfg c).1.res.content) ∧
    (∀ (cfg : ScanConfig) (c : Commit), cfg.content_regex = none →
      (GitHuntr.search_commit cfg c).1.res.content = []) ∧
    (∀ (cfg : ScanConfig) (p : Pattern) (dirs : List WalkDir) (d : WalkDir) (f : FsFile)
        (t : String),
      cfg.content_regex = some p → d ∈ dirs → containsGit d.root = false → f ∈ d.files →
      f.data = some t → p.search t = true →
      (f.relPath, p.findall t) ∈ (GitHuntr.search_branch cfg true dirs).content) ∧
    (∀ (cfg : ScanConfig) (dirs : List WalkDir), cfg.content_regex = none →
      (GitHuntr.search_branch cfg true dirs).content = []) := by
  refine ⟨?_, ?_, ?_, ?_⟩
  · intro cfg p c blobs b t hp ht hb htype hd hs
    rw [(GitHuntr.search_commit_views cfg c blobs ht).1]
    refine mem_catMap hb ?_
    simp [GitHuntr.ctOf, htype, hd, hp, hs]
  · intro cfg c hp
    rcases ht : c.tree with _ | blobs
    · simp [GitHuntr.search_commit, ht, emptyTR]
    · rw [(GitHuntr.search_commit_views cfg c blobs ht).1]
      exact catMap_nil_of (fun b _ => GitHuntr.ctOf_of_no_regex cfg b hp)
  · intro cfg p dirs d f t hp hd hg hf hdata hs
    rw [GitHuntr.search_branch_views]
    refine mem_catMap hd ?_
    rw [GitHuntr.dirC, if_neg (by simp [hg])]
    refine mem_catMap hf ?_
    simp [GitHuntr.ctOfF, hdata, hp, hs]
  · intro cfg dirs hp
    rw [GitHuntr.search_branch_views]
    refine catMap_nil_of (fun d _ => ?_)
    rw [GitHuntr.dirC]
    split_ifs with hg
    · rfl
    · exact catMap_nil_of (fun f _ => GitHuntr.ctOfF_of_no_regex cfg f hp)

/-- Witness for C7 at the spec's example: content `key=AAA key=BBB`
against pattern `key=\w+` yields the list of both matches. -/
theorem content_view_all_matches_witness :
    pKeyW.findall "key=AAA key=BBB" = ["key=AAA", "key=BBB"] ∧
    ("config.yaml", ["key=AAA", "key=BBB"]) ∈
      (GitHuntr.search_commit cfgKey keyCommit).1.res.content := by
  refine ⟨by decide, ?_⟩
  have h := content_view_all_matches.1 cfgKey pKeyW keyCommit [keyBlob] keyBlob
    "key=AAA key=BBB" rfl rfl (by decide) rfl rfl (by decide)
  exact (by decide : pKeyW.findall "key=AAA key=BBB" = ["key=AAA", "key=BBB"]) ▸ h

/-- C10: a walked directory whose path contains `.git` as a substring —
including non-VCS directories such as `.github` — is skipped entirely:
removing it from the walk leaves every view of the branch scan
unchanged. -/
theorem dotgit_substring_dirs_skipped (cfg : ScanConfig) (pre post : List WalkDir)
    (d : WalkDir) (hg : containsGit d.root = true) :
    GitHuntr.search_branch cfg true (pre ++ d :: post) =
      GitHuntr.search_branch cfg true (pre ++ post) := by
  rw [GitHuntr.search_branch, if_pos rfl, GitHuntr.search_branch, if_pos rfl,
    List.foldl_append, List.foldl_append, List.foldl_cons, GitHuntr.scanDirStep, if_pos hg]

/-- Witness for C10: a `.github` directory containing a file whose name
would match is skipped, leaving the scan result empty. -/
theorem dotgit_substring_dirs_skipped_witness :
    containsGit githubDir.root = true ∧
    GitHuntr.search_branch cfgFnOnly true [githubDir] = emptyTR := by
  refine ⟨by decide, ?_⟩
  have h := dotgit_substring_dirs_skipped cfgFnOnly [] [] githubDir (by decide)
  exact h

/-- C2 counterexample: a file whose bytes fail to decode can still
appear in the filenames view, because filename matching happens before
the content read; the claim that it produces no entry in any view is
false. -/
theorem undecodable_file_in_filenames_view_cex :
    badBlob.data = none ∧
    (GitHuntr.search_commit cfgFnOnly ⟨"h", "a", 0, "m", some [badBlob]⟩).1.res.filenames =
      ["data.bin"] := by
  refine ⟨rfl, ?_⟩
  rw [(GitHuntr.search_commit_views cfgFnOnly ⟨"h", "a", 0, "m", some [badBlob]⟩ [badBlob] rfl).1]
  rfl

/-- C2 (amended): a file whose bytes fail to decode produces no entry in
the content or entropy views and leaves the scan of the other tree
entries unaffected (in both the commit scan and the branch walk); its
filenames-view entry, produced before the read, survives. -/
theorem undecodable_file_skips_content_entropy :
    (∀ (cfg : ScanConfig) (hsh au : String) (dt : Int) (msg : String)
        (pre post : List Blob) (bad : Blob), bad.data = none →
      ((GitHuntr.search_commit cfg ⟨hsh, au, dt, msg, some (pre ++ bad :: post)⟩).1.res.content =
          (GitHuntr.search_commit cfg ⟨hsh, au, dt, msg, some (pre ++ post)⟩).1.res.content ∧
        (GitHuntr.search_commit cfg ⟨hsh, au, dt, msg, some (pre ++ bad :: post)⟩).1.res.entropy =
          (GitHuntr.search_commit cfg ⟨hsh, au, dt, msg, some (pre ++ post)⟩).1.res.entropy ∧
        (GitHuntr.search_commit cfg ⟨hsh, au, dt, msg, some (pre ++ bad :: post)⟩).1.res.filenames =
          catMap (GitHuntr.fnOf cfg) pre ++ GitHuntr.fnOf cfg bad ++
            catMap (GitHuntr.fnOf cfg) post)) ∧
    (∀ (cfg : ScanConfig) (dpre dpost : List WalkDir) (root : String)
        (fpre fpost : List FsFile) (badf : FsFile), badf.data = none →
      ((GitHuntr.search_branch cfg true
            (dpre ++ ⟨root, fpre ++ badf :: fpost⟩ :: dpost)).content =
          (GitHuntr.search_branch cfg true (dpre ++ ⟨root, fpre ++ fpost⟩ :: dpost)).content ∧
        (GitHuntr.search_branch cfg true
            (dpre ++ ⟨root, fpre ++ badf :: fpost⟩ :: dpost)).entropy =
          (GitHuntr.search_branch cfg true (dpre ++ ⟨root, fpre ++ fpost⟩ :: dpost)).entropy)) := by
  constructor
  · intro cfg hsh au dt msg pre post bad hbad
    have h1 := (GitHuntr.search_commit_views cfg ⟨hsh, au, dt, msg,
      some (pre ++ bad :: post)⟩ _ rfl).1
    have h2 := (GitHuntr.search_commit_views cfg ⟨hsh, au, dt, msg,
      some (pre ++ post)⟩ _ rfl).1
    rw [h1, h2]
    refine ⟨?_, ?_, ?_⟩
    · show catMap (GitHuntr.ctOf cfg) (pre ++ bad :: post) =
        catMap (GitHuntr.ctOf cfg) (pre ++ post)
      rw [catMap_append, catMap_append,
        show catMap (GitHuntr.ctOf cfg) (bad :: post) =
          GitHuntr.ctOf cfg bad ++ catMap (GitHuntr.ctOf cfg) post from rfl,
        GitHuntr.ctOf_of_data_none cfg bad hbad, List.nil_append]
    · show catMap (GitHuntr.enOf cfg) (pre ++ bad :: post) =
        catMap (GitHuntr.enOf cfg) (pre ++ post)
      rw [catMap_append, catMap_append,
        show catMap (GitHuntr.enOf cfg) (bad :: post) =
          GitHuntr.enOf cfg bad ++ catMap (GitHuntr.enOf cfg) post from rfl,
        GitHuntr.enOf_of_data_none cfg bad hbad, List.nil_append]
    · show catMap (GitHuntr.fnOf cfg) (pre ++ bad :: post) = _
      rw [catMap_append,
        show catMap (GitHuntr.fnOf cfg) (bad :: post) =
          GitHuntr.fnOf cfg bad ++ catMap (GitHuntr.fnOf cfg) post from rfl,
        List.append_assoc]
  · intro cfg dpre dpost root fpre fpost badf hbad
    rw [GitHuntr.search_branch_views, GitHuntr.search_branch_views]
    constructor
    · show catMap (GitHuntr.dirC cfg) (dpre ++ _ :: dpost) =
        catMap (GitHuntr.dirC cfg) (dpre ++ _ :: dpost)
      rw [catMap_append, catMap_append]
      congr 1
      show GitHuntr.dirC cfg ⟨root, fpre ++ badf :: fpost⟩ ++ catMap (GitHuntr.dirC cfg) dpost =
        GitHuntr.dirC cfg ⟨root, fpre ++ fpost⟩ ++ catMap (GitHuntr.dirC cfg) dpost
      congr 1
      rw [GitHuntr.dirC, GitHuntr.dirC]
      split_ifs with hgit
      · rfl
      · rw [catMap_append, catMap_append,
          show catMap (GitHuntr.ctOfF cfg) (badf :: fpost) =
            GitHuntr.ctOfF cfg badf ++ catMap (GitHuntr.ctOfF cfg) fpost from rfl,
          GitHuntr.ctOfF_of_data_none cfg badf hbad, List.nil_append]
    · show catMap (GitHuntr.dirE cfg) (dpre ++ _ :: dpost) =
        catMap (GitHuntr.dirE cfg) (dpre ++ _ :: dpost)
      rw [catMap_append, catMap_append]
      congr 1
      show GitHuntr.dirE cfg ⟨root, fpre ++ badf :: fpost⟩ ++ catMap (GitHuntr.dirE cfg) dpost =
        GitHuntr.dirE cfg ⟨root, fpre ++ fpost⟩ ++ catMap (GitHuntr.dirE cfg) dpost
      congr 1
      rw [GitHuntr.dirE, GitHuntr.dirE]
      split_ifs with hgit
      · rfl
      · rw [catMap_append, catMap_append,
          show catMap (GitHuntr.enOfF cfg) (badf :: fpost) =
            GitHuntr.enOfF cfg badf ++ catMap (GitHuntr.enOfF cfg) fpost from rfl,
          GitHuntr.enOfF_of_data_none cfg badf hbad, List.nil_append]

/-- Witness for the amended C2: a single undecodable file contributes
nothing to the content and entropy views. -/
theorem undecodable_file_skips_content_entropy_witness :
    badBlob.data = none ∧
    (GitHuntr.search_commit cfgFnOnly ⟨"h", "a", 0, "m", some [badBlob]⟩).1.res.content =
      (GitHuntr.search_commit cfgFnOnly ⟨"h", "a", 0, "m", some []⟩).1.res.content ∧
    (GitHuntr.search_commit cfgFnOnly ⟨"h", "a", 0, "m", some [badBlob]⟩).1.res.entropy =
      (GitHuntr.search_commit cfgFnOnly ⟨"h", "a", 0, "m", some []⟩).1.res.entropy := by
  have h := undecodable_file_skips_content_entropy.1 cfgFnOnly "h" "a" 0 "m" [] [] badBlob rfl
  exact ⟨rfl, h.1, h.2.1⟩

/-- C1 counterexample: the code has no content-identity cache — two
commits whose trees reference the byte-identical file cause the
byte-reading path to run twice, not once per distinct content. -/
theorem history_rereads_identical_content_cex :
    cH1.tree = cH2.tree ∧
    (GitHuntr.search_history cfgPlain [cH1, cH2] none).2 = 2 := by
  refine ⟨rfl, ?_⟩
  rw [GitHuntr.search_history_reads]
  rfl

/-- C1 (amended): the byte-reading path runs once per blob entry of
each processed commit's tree, independent of content identity: there is
no deduplication, so byte-identical content reached from several
commits is read and scanned once per occurrence. -/
theorem history_reads_per_blob_occurrence (cfg : ScanConfig) (commits : List Commit)
    (max_commits : Option Int) :
    (GitHuntr.search_history cfg commits max_commits).2 =
      sumMap GitHuntr.commitReads (GitHuntr.processedCommits commits max_commits) := by
  rw [GitHuntr.search_history_reads]
  exact sumMap_congr (fun c _ => GitHuntr.search_commit_reads cfg c)

/-- C8 counterexample: `maxCommits = 0` is falsy in the source's
`if self.max_commits:` guard, so all commits are processed rather than
at most zero. -/
theorem history_bound_zero_cex :
    GitHuntr.processedCommits [cA] (some 0) = [cA] ∧
    ¬((GitHuntr.processedCommits [cA] (some 0)).length ≤ (0 : Int).toNat) := by
  exact ⟨rfl, by decide⟩

/-- C8 (amended): for every positive supplied `maxCommits`, history
scanning processes at most `maxCommits` commits, namely the first
(most recent) ones of the iteration order; with no bound every commit
is processed (a bound of zero, being falsy, also processes all). -/
theorem history_bound_first_commits :
    (∀ (commits : List Commit) (m : Int), 0 < m →
      GitHuntr.processedCommits commits (some m) = commits.take m.toNat ∧
      (GitHuntr.processedCommits commits (some m)).length ≤ m.toNat) ∧
    (∀ commits : List Commit, GitHuntr.processedCommits commits none = commits) := by
  constructor
  · intro commits m hm
    have hne : m ≠ 0 := by omega
    have hnlt : ¬(m < 0) := by omega
    have h1 : GitHuntr.processedCommits commits (some m) = commits.take m.toNat := by
      simp only [GitHuntr.processedCommits]
      rw [if_neg hne, GitHuntr.pyTake, if_neg hnlt]
    exact ⟨h1, by rw [h1, List.length_take]; exact Nat.min_le_left _ _⟩
  · intro commits
    rfl

/-- Witness for the amended C8: three commits with bound two yield
exactly the first two. -/
theorem history_bound_first_commits_witness :
    (0 : Int) < 2 ∧
    GitHuntr.processedCommits [cA, cB, cC] (some 2) = [cA, cB, cC].take (2 : Int).toNat ∧
    (GitHuntr.processedCommits [cA, cB, cC] (some 2)).length ≤ (2 : Int).toNat ∧
    GitHuntr.processedCommits [cA, cB, cC] (some 2) = [cA, cB] := by
  have h := history_bound_first_commits.1 [cA, cB, cC] 2 (by decide)
  exact ⟨by decide, h.1, h.2, by rw [h.1]; rfl⟩

/-- C9: the temporary clone directory is released on every exit path of
`scan_repository` — after success as well as when the clone, branch
scanning, or history scanning stage raises and the exception propagates
to the caller. -/
theorem scan_repository_guaranteed_cleanup (cr br hr : Except String Unit) (dh : Bool)
    (w : GitHuntr.World) :
    ((GitHuntr.scan_repository cr br hr dh w).2.tempDirExists = false) ∧
    (∀ e, cr = .error e → (GitHuntr.scan_repository cr br hr dh w).1 = .error e) ∧
    (∀ e, cr = .ok () → br = .error e →
      (GitHuntr.scan_repository cr br hr dh w).1 = .error e) ∧
    (∀ e, cr = .ok () → br = .ok () → dh = true → hr = .error e →
      (GitHuntr.scan_repository cr br hr dh w).1 = .error e) ∧
    (cr = .ok () → br = .ok () → (dh = true → hr = .ok ()) →
      (GitHuntr.scan_repository cr br hr dh w).1 = .ok ()) := by
  refine ⟨?_, ?_, ?_, ?_, ?_⟩
  · rcases w with ⟨b⟩
    cases b <;> simp [GitHuntr.scan_repository, GitHuntr.cleanup_temp]
  · rintro e rfl
    rfl
  · rintro e rfl rfl
    rfl
  · rintro e rfl rfl rfl rfl
    rfl
  · rintro rfl rfl h3
    cases dh
    · rfl
    · rw [h3 rfl]
      rfl

/-- Witness for C9: a failing clone stage propagates its error while the
temporary directory is still released. -/
theorem scan_repository_guaranteed_cleanup_witness :
    (GitHuntr.scan_repository (.error "boom") (.ok ()) (.ok ()) true ⟨true⟩).2.tempDirExists =
      false ∧
    (GitHuntr.scan_repository (.error "boom") (.ok ()) (.ok ()) true ⟨true⟩).1 =
      .error "boom" :=
  ⟨(scan_repository_guaranteed_cleanup (.error "boom") (.ok ()) (.ok ()) true ⟨true⟩).1,
    (scan_repository_guaranteed_cleanup (.error "boom") (.ok ()) (.ok ()) true ⟨true⟩).2.1
      "boom" rfl⟩
